import Mathlib

/-!
Verification of the kilo-style terminal text editor (src/kilo.c) against its
natural-language specification.  The definitions below are a shallow embedding
of the editor's data model and operations, translated directly from the C
source: rows are lists of characters, the global `struct editorConfig E` is the
structure `EState`, C `int` fields that can go negative (`numrows`, `dirty`,
row indices passed to row operations) are `Int`, and cursor coordinates (which
the code keeps non-negative on every path) are `Nat`.  Machine-level concerns
(allocation, pointers, terminal I/O) are outside the model; every function
models the byte-level/value-level effect of the corresponding C function.
-/

/-- KILO_TAB_STOP from src/kilo.c line 22. -/
def KILO_TAB_STOP : Nat := 8

/-- KILO_QUIT_TIMES from src/kilo.c line 23. -/
def KILO_QUIT_TIMES : Int := 3

/-- Values of `enum editorKey` (src/kilo.c lines 27-38); `editorReadKey`
returns these as C `int`s, plain bytes are returned as their codes. -/
def BACKSPACE : Int := 127
def ARROW_LEFT : Int := 1000
def ARROW_RIGHT : Int := 1001
def ARROW_UP : Int := 1002
def ARROW_DOWN : Int := 1003
def DEL_KEY : Int := 1004
def HOME_KEY : Int := 1005
def END_KEY : Int := 1006
def PAGE_UP : Int := 1007
def PAGE_DOWN : Int := 1008

/-- Values of `enum editorHighlight` (src/kilo.c lines 40-44). -/
def HL_NORMAL : Nat := 0
def HL_NUMBER : Nat := 1
def HL_MATCH : Nat := 2

/-- C `isspace` on the ASCII characters that can occur in a row. -/
def isspaceC (c : Char) : Bool :=
  c = ' ' || c = '\t' || c = '\n' || c = '\x0b' || c = '\x0c' || c = '\r'

/-- is_separator (src/kilo.c lines 262-265): whitespace, the NUL byte, or one
of the punctuation characters of the string literal passed to strchr. -/
def is_separator (c : Char) : Bool :=
  isspaceC c || c = '\x00' || (",.()+-/*=~%<>[];".toList.contains c)

/-- Tab-expansion loop of editorUpdateRow (src/kilo.c lines 351-358): a tab
emits one space and then spaces until the render index is a multiple of
KILO_TAB_STOP (8 - idx % 8 spaces in total); every other byte copies through.
`idx` is the current render index. -/
def renderChars : List Char → Nat → List Char
  | [], _ => []
  | c :: cs, idx =>
    if c = '\t' then
      let pad := KILO_TAB_STOP - idx % KILO_TAB_STOP
      List.replicate pad ' ' ++ renderChars cs (idx + pad)
    else
      c :: renderChars cs (idx + 1)

/-- Loop body of editorUpdateSyntax (src/kilo.c lines 278-294).  `prev_sep`
starts true (line start counts as a separator); `prev_hl` is the highlight
assigned to the previous render character (HL_NORMAL at the start).  A digit is
HL_NUMBER if the previous character was a separator or itself HL_NUMBER; a dot
is HL_NUMBER if the previous character was HL_NUMBER; everything else is
HL_NORMAL, and `prev_sep` becomes is_separator of the character. -/
def updateSyntaxGo : List Char → Bool → Nat → List Nat
  | [], _, _ => []
  | c :: cs, prev_sep, prev_hl =>
    if (c.isDigit && (prev_sep || prev_hl = HL_NUMBER)) || (c = '.' && prev_hl = HL_NUMBER) then
      HL_NUMBER :: updateSyntaxGo cs false HL_NUMBER
    else
      HL_NORMAL :: updateSyntaxGo cs (is_separator c) HL_NORMAL

/-- editorUpdateSyntax (src/kilo.c lines 268-295) computed over a render
string: one highlight value per render character. -/
def editorUpdateSyntax (render : List Char) : List Nat :=
  updateSyntaxGo render true HL_NORMAL

/-- erow (src/kilo.c lines 50-57): `chars` is the line content without its
newline, `render` the tab-expanded display form, `hl` one highlight value per
render character.  `size` and `rsize` are the lengths of `chars` and `render`. -/
structure Erow where
  chars : List Char
  render : List Char
  hl : List Nat
deriving DecidableEq, Repr

/-- editorUpdateRow (src/kilo.c lines 341-363): rebuild `render` from `chars`
by tab expansion and then rebuild `hl` from `render`.  (The C function's
tab-counting loop at line 344 is dead because of a stray semicolon, so the
malloc may be undersized when the row has tabs; the sequence of characters it
writes is still the expansion modelled here.) -/
def editorUpdateRow (chars : List Char) : Erow :=
  let r := renderChars chars 0
  { chars := chars, render := r, hl := editorUpdateSyntax r }

/-- A row with no content, used as the (unreachable) default for out-of-range
row lookups, which in C would be out-of-bounds pointer accesses. -/
def emptyRow : Erow := editorUpdateRow []

/-- Insertion into a list at an index, modelling the memmove in
editorInsertRow; the guard in the caller keeps the index at most the length. -/
def listInsertIdx : Nat → α → List α → List α
  | 0, a, l => a :: l
  | _ + 1, a, [] => [a]
  | n + 1, a, c :: cs => c :: listInsertIdx n a cs

/-- Erasure of the element at an index, modelling the memmove in editorDelRow
for an in-range index; out of range it leaves the list unchanged. -/
def listEraseIdx : Nat → List α → List α
  | _, [] => []
  | 0, _ :: cs => cs
  | n + 1, c :: cs => c :: listEraseIdx n cs

/-- memcpy of the first `n` elements of `src` over `dst`. -/
def memcpyList (dst src : List α) (n : Nat) : List α :=
  src.take n ++ dst.drop n

/-- memset of `n` copies of `v` into `l` starting at `start`. -/
def memsetList (l : List Nat) (start n v : Nat) : List Nat :=
  l.take start ++ List.replicate n v ++ l.drop (start + n)

/-- The fields of `struct editorConfig E` (src/kilo.c lines 61-75) that the
editing operations read or write.  `numrows` and `dirty` are C ints kept as
separate fields exactly as in the source (`numrows` is not derived from
`rows.length`, so slips such as the editorDelRow range guard are visible);
`rowoff` is the vertical scroll offset (written by the search callback).
Terminal-only fields (rx, coloff, screen dimensions, filename, statusmsg,
termios) are not part of the buffer model. -/
structure EState where
  cx : Nat
  cy : Nat
  rowoff : Int
  numrows : Int
  rows : List Erow
  dirty : Int
deriving DecidableEq, Repr

/-- State after initEditor (src/kilo.c lines 1082-1097), buffer fields only. -/
def initState : EState :=
  { cx := 0, cy := 0, rowoff := 0, numrows := 0, rows := [], dirty := 0 }

/-- editorInsertRow (src/kilo.c lines 366-388): no-op when `at` is outside
[0, numrows]; otherwise insert a fresh row built from `s` at position `at`,
increment numrows and dirty. -/
def editorInsertRow (E : EState) (at_ : Int) (s : List Char) : EState :=
  if at_ < 0 ∨ at_ > E.numrows then E
  else
    { E with rows := listInsertIdx at_.toNat (editorUpdateRow s) E.rows,
             numrows := E.numrows + 1,
             dirty := E.dirty + 1 }

/-- editorDelRow (src/kilo.c lines 399-410).  The guard is `at < 0 || at >
E.numrows` exactly as in the source (note `>`), so `at = numrows` is not
rejected: the code then frees and memmoves past the end of the row array
(undefined behavior in C; the list model leaves the rows unchanged there) and
still decrements numrows and dirty. -/
def editorDelRow (E : EState) (at_ : Int) : EState :=
  if at_ < 0 ∨ at_ > E.numrows then E
  else
    { E with rows := listEraseIdx at_.toNat E.rows,
             numrows := E.numrows - 1,
             dirty := E.dirty - 1 }

/-- editorRowInsertChar (src/kilo.c lines 413-424) acting on row `i` of the
state: clamp `at` to [0, size], insert `c` there, rebuild the row, increment
dirty (the C function increments E.dirty itself). -/
def editorRowInsertChar (E : EState) (i : Nat) (at_ : Int) (c : Char) : EState :=
  let row := E.rows.getD i emptyRow
  let at' := if at_ < 0 ∨ at_ > (row.chars.length : Int) then row.chars.length else at_.toNat
  { E with rows := E.rows.set i (editorUpdateRow (row.chars.take at' ++ c :: row.chars.drop at')),
           dirty := E.dirty + 1 }

/-- editorRowAppendString (src/kilo.c lines 427-438) acting on row `i`:
append `s` to the row's chars, rebuild, increment dirty. -/
def editorRowAppendString (E : EState) (i : Nat) (s : List Char) : EState :=
  let row := E.rows.getD i emptyRow
  { E with rows := E.rows.set i (editorUpdateRow (row.chars ++ s)),
           dirty := E.dirty + 1 }

/-- editorRowDelChar (src/kilo.c lines 441-450) acting on row `i`: no-op when
`at` is outside [0, size-1]; otherwise delete the byte at `at`, rebuild,
increment dirty. -/
def editorRowDelChar (E : EState) (i : Nat) (at_ : Int) : EState :=
  let row := E.rows.getD i emptyRow
  if at_ < 0 ∨ at_ ≥ (row.chars.length : Int) then E
  else
    { E with rows := E.rows.set i (editorUpdateRow
               (row.chars.take at_.toNat ++ row.chars.drop (at_.toNat + 1))),
             dirty := E.dirty + 1 }

/-- editorInsertChar (src/kilo.c lines 462-468): append an empty row first if
the cursor sits one past the last line, insert the byte at the cursor column
of the cursor row, advance the cursor column. -/
def editorInsertChar (E : EState) (c : Char) : EState :=
  let E1 := if (E.cy : Int) = E.numrows then editorInsertRow E E.numrows [] else E
  let E2 := editorRowInsertChar E1 E1.cy ((E1.cx : Int)) c
  { E2 with cx := E2.cx + 1 }

/-- editorInsertNewline (src/kilo.c lines 471-491): at column 0 insert an
empty row above; otherwise insert the right part of the current row as a new
row below and truncate the current row at the cursor column.  The cursor moves
to column 0 of the next line. -/
def editorInsertNewline (E : EState) : EState :=
  let E1 :=
    if E.cx = 0 then editorInsertRow E (E.cy : Int) []
    else
      let row := E.rows.getD E.cy emptyRow
      let Ea := editorInsertRow E ((E.cy : Int) + 1) (row.chars.drop E.cx)
      let row2 := Ea.rows.getD E.cy emptyRow
      { Ea with rows := Ea.rows.set E.cy (editorUpdateRow (row2.chars.take E.cx)) }
  { E1 with cy := E1.cy + 1, cx := 0 }

/-- editorDelChar (src/kilo.c lines 493-514): no-op one past the last line and
no-op at (0,0); with column > 0 delete the byte to the left and move left;
at column 0 of a later line set the column to the previous row's length,
append this row to the previous row, delete this row, move up. -/
def editorDelChar (E : EState) : EState :=
  if (E.cy : Int) = E.numrows then E
  else if E.cx = 0 ∧ E.cy = 0 then E
  else
    let row := E.rows.getD E.cy emptyRow
    if E.cx > 0 then
      let E1 := editorRowDelChar E E.cy ((E.cx : Int) - 1)
      { E1 with cx := E1.cx - 1 }
    else
      let E1 := { E with cx := (E.rows.getD (E.cy - 1) emptyRow).chars.length }
      let E2 := editorRowAppendString E1 (E.cy - 1) row.chars
      let E3 := editorDelRow E2 (E.cy : Int)
      { E3 with cy := E3.cy - 1 }

/-- Concatenation loop of editorRowsToString (src/kilo.c lines 531-536): each
row's chars followed by a single newline byte, in row order. -/
def editorRowsToString : List Erow → List Char
  | [] => []
  | r :: rs => r.chars ++ '\n' :: editorRowsToString rs

/-- Length computation of editorRowsToString (src/kilo.c lines 520-526): the
`totlen` loop sums each row's size plus one; this value is returned through
`*buflen`. -/
def rowsToStringBuflen : List Erow → Int
  | [] => 0
  | r :: rs => ((r.chars.length : Int) + 1) + rowsToStringBuflen rs

/-- getline splitting: the chunks returned by successive getline calls in
editorOpen, i.e. maximal pieces of the content each ending with the newline
byte that terminated it (the final chunk may lack one); `acc` holds the bytes
of the current chunk in reverse. -/
def getlineChunks (acc : List Char) : List Char → List (List Char)
  | [] => if acc.isEmpty then [] else [acc.reverse]
  | c :: cs =>
    if c = '\n' then ('\n' :: acc).reverse :: getlineChunks [] cs
    else getlineChunks (c :: acc) cs

/-- Line-length trimming loop of editorOpen (src/kilo.c lines 555-557): drop
trailing '\n' and '\r' bytes from a getline chunk. -/
def stripTrailingNlCr (l : List Char) : List Char :=
  (l.reverse.dropWhile (fun c => c = '\n' || c = '\r')).reverse

/-- editorOpen (src/kilo.c lines 543-563), byte-level contract: for each
getline chunk of the file content, strip trailing '\n'/'\r' and append it as a
row at position numrows; finally reset dirty to 0.  (Filename bookkeeping and
fopen failure, which is fatal, are outside the buffer model.) -/
def editorOpen (E : EState) (content : List Char) : EState :=
  let E1 := (getlineChunks [] content).foldl
    (fun Ei line => editorInsertRow Ei Ei.numrows (stripTrailingNlCr line)) E
  { E1 with dirty := 0 }

/-- Advance of the render column over one char, shared by the loop bodies of
editorRowCxToRx (src/kilo.c lines 313-317) and editorRowRxToCx (lines
327-331): a tab does rx += (KILO_TAB_STOP - 1) - rx % KILO_TAB_STOP followed
by rx++, any other byte does rx++. -/
def advanceRx (rx : Nat) (c : Char) : Nat :=
  if c = '\t' then rx + (KILO_TAB_STOP - 1 - rx % KILO_TAB_STOP) + 1
  else rx + 1

/-- Loop of editorRowCxToRx (src/kilo.c lines 309-320): replay tab expansion
over the chars handed to it. -/
def cxToRxGo : List Char → Nat → Nat
  | [], rx => rx
  | c :: cs, rx => cxToRxGo cs (advanceRx rx c)

/-- editorRowCxToRx over a row's chars; the C loop reads chars[j] for j < cx,
which for valid cx (at most the row size) is the prefix of length cx. -/
def editorRowCxToRx (chars : List Char) (cx : Nat) : Nat :=
  cxToRxGo (chars.take cx) 0

/-- editorRowRxToCx (src/kilo.c lines 323-338): scan the whole chars string
accumulating the render index cur_rx; return the first char index whose
accumulated render index exceeds `rx`, or the row size if none does. -/
def rxToCxGo : List Char → Nat → Nat → Nat → Nat
  | [], _, _, cx => cx
  | c :: cs, rx, cur_rx, cx =>
    if advanceRx cur_rx c > rx then cx else rxToCxGo cs rx (advanceRx cur_rx c) (cx + 1)

/-- editorRowRxToCx over a row's chars. -/
def editorRowRxToCx (chars : List Char) (rx : Nat) : Nat :=
  rxToCxGo chars rx 0 0

/-- editorReadKey (src/kilo.c lines 154-209) as a function of the available
input bytes (end of list = a read timing out; the first read blocks, so an
empty input is unreachable and decodes to 0).  Note line 196 of the source
compares seq[0] against the DIGIT '0' (0x30), not the letter 'O'. -/
def editorReadKey : List Char → Int
  | [] => 0
  | c :: rest =>
    if c = '\x1b' then
      match rest with
      | [] => 0x1b
      | s0 :: rest1 =>
        match rest1 with
        | [] => 0x1b
        | s1 :: rest2 =>
          if s0 = '[' then
            if '0' ≤ s1 ∧ s1 ≤ '9' then
              match rest2 with
              | [] => 0x1b
              | s2 :: _ =>
                if s2 = '~' then
                  if s1 = '1' then HOME_KEY
                  else if s1 = '3' then DEL_KEY
                  else if s1 = '4' then END_KEY
                  else if s1 = '5' then PAGE_UP
                  else if s1 = '6' then PAGE_DOWN
                  else if s1 = '7' then HOME_KEY
                  else if s1 = '8' then END_KEY
                  else 0x1b
                else 0x1b
            else
              if s1 = 'A' then ARROW_UP
              else if s1 = 'B' then ARROW_DOWN
              else if s1 = 'C' then ARROW_RIGHT
              else if s1 = 'D' then ARROW_LEFT
              else if s1 = 'H' then HOME_KEY
              else if s1 = 'F' then END_KEY
              else 0x1b
          else if s0 = '0' then
            if s1 = 'H' then HOME_KEY
            else if s1 = 'F' then END_KEY
            else 0x1b
          else 0x1b
    else (c.toNat : Int)

/-- The four arrow directions editorMoveCursor is called with. -/
inductive Dir where
  | left
  | right
  | up
  | down
deriving DecidableEq, Repr

/-- Switch of editorMoveCursor (src/kilo.c lines 957-980), before the final
snap.  `row` is NULL exactly when the cursor row index is at least numrows;
since both ARROW_RIGHT arms require `row` non-NULL, that case is written here
as an early identity. -/
def moveStep : EState → Dir → EState
  | E, .left =>
    if E.cx ≠ 0 then { E with cx := E.cx - 1 }
    else if E.cy > 0 then
      { E with cy := E.cy - 1, cx := (E.rows.getD (E.cy - 1) emptyRow).chars.length }
    else E
  | E, .right =>
    if (E.cy : Int) ≥ E.numrows then E
    else
      let row := E.rows.getD E.cy emptyRow
      if E.cx < row.chars.length then { E with cx := E.cx + 1 }
      else if E.cx = row.chars.length then { E with cy := E.cy + 1, cx := 0 }
      else E
  | E, .up => if E.cy ≠ 0 then { E with cy := E.cy - 1 } else E
  | E, .down => if (E.cy : Int) < E.numrows then { E with cy := E.cy + 1 } else E

/-- Snap of editorMoveCursor (src/kilo.c lines 983-987): clamp the cursor
column to the length of the line it is now on (0 when past the last line). -/
def snapCursor (E : EState) : EState :=
  let rowlen := if (E.cy : Int) ≥ E.numrows then 0 else (E.rows.getD E.cy emptyRow).chars.length
  if E.cx > rowlen then { E with cx := rowlen } else E

/-- editorMoveCursor (src/kilo.c lines 952-988). -/
def editorMoveCursor (E : EState) (d : Dir) : EState :=
  snapCursor (moveStep E d)

/-- Static state of editorFindCallback (src/kilo.c lines 606-612): index of
the last matched row (-1 = none), search direction (1 forward, -1 backward),
and the saved copy of one line's highlight array together with its line. -/
structure FindState where
  last_match : Int
  direction : Int
  saved_hl_line : Int
  saved_hl : Option (List Nat)
deriving DecidableEq, Repr

/-- Fresh search-session state: the C statics start as last_match = -1,
direction = 1, saved_hl = NULL. -/
def initFindState : FindState :=
  { last_match := -1, direction := 1, saved_hl_line := 0, saved_hl := none }

/-- strstr as an index: the first position of `s` at which `q` occurs as a
substring (strstr(haystack s, needle q) in the source, which searches the
render string). -/
def strstrIdx (q : List Char) : List Char → Option Nat
  | [] => if q.isPrefixOf ([] : List Char) then some 0 else none
  | c :: s' =>
    if q.isPrefixOf (c :: s') then some 0
    else (strstrIdx q s').map (fun n => n + 1)

/-- Search loop of editorFindCallback (src/kilo.c lines 645-677): at most
numrows steps; each step advances `current` in the search direction with
wraparound, and on the first row whose render contains the query it moves the
cursor there (converting the render index back to a chars index), sets rowoff
to numrows to force a scroll, saves that row's highlight array in the static
state and overwrites the matched range with HL_MATCH. -/
def findLoop (E : EState) (fs : FindState) (query : List Char) :
    Int → Nat → EState × FindState
  | _, 0 => (E, fs)
  | current, fuel + 1 =>
    let current1 := current + fs.direction
    let current2 :=
      if current1 = -1 then E.numrows - 1
      else if current1 = E.numrows then 0
      else current1
    let row := E.rows.getD current2.toNat emptyRow
    match strstrIdx query row.render with
    | some idx =>
      let fs' := { fs with last_match := current2,
                           saved_hl_line := current2,
                           saved_hl := some row.hl }
      let row' := { row with hl := memsetList row.hl idx query.length HL_MATCH }
      ({ E with cy := current2.toNat,
                cx := editorRowRxToCx row.chars idx,
                rowoff := E.numrows,
                rows := E.rows.set current2.toNat row' }, fs')
    | none => findLoop E fs query current2 fuel

/-- editorFindCallback (src/kilo.c lines 604-680): first restore any saved
highlight array; on Enter or Escape reset the match memory and direction; on
arrows set the direction; on any other key reset to a fresh forward search;
then, when searching forward from no match, scan from the last match in the
current direction. -/
def editorFindCallback (E : EState) (fs : FindState) (query : List Char) (key : Int) :
    EState × FindState :=
  let restored :=
    match fs.saved_hl with
    | some saved =>
      let row := E.rows.getD fs.saved_hl_line.toNat emptyRow
      let row' : Erow := { row with hl := memcpyList row.hl saved row.render.length }
      ({ E with rows := E.rows.set fs.saved_hl_line.toNat row' },
       { fs with saved_hl := none })
    | none => (E, fs)
  let E1 := restored.1
  let fs1 := restored.2
  if key = 13 ∨ key = 27 then
    (E1, { fs1 with last_match := -1, direction := 1 })
  else
    let fs2 :=
      if key = ARROW_RIGHT ∨ key = ARROW_DOWN then { fs1 with direction := 1 }
      else if key = ARROW_LEFT ∨ key = ARROW_UP then { fs1 with direction := -1 }
      else { fs1 with last_match := -1, direction := 1 }
    let fs3 := if fs2.last_match = -1 then { fs2 with direction := 1 } else fs2
    findLoop E1 fs3 query fs3.last_match E1.numrows.toNat

/-- C `iscntrl` on the key codes editorPrompt sees (byte values and the
special-key codes at 1000+, none of which are control characters). -/
def iscntrlI (c : Int) : Bool :=
  (0 ≤ c ∧ c ≤ 31) || c = 127

/-- Result of the editorPrompt loop on a finite key sequence: `canceled` is
the NULL return on Escape, `submitted` the buffer returned on Enter with
non-empty input, `pending` means the keys ran out with the loop still going
(holding the accumulated buffer). -/
inductive PromptResult where
  | canceled
  | submitted (s : List Char)
  | pending (buf : List Char)
deriving DecidableEq, Repr

/-- editorPrompt (src/kilo.c lines 905-949) with a NULL callback, as a
function of the decoded keys it reads: Delete/Ctrl-H/Backspace drop the last
buffered byte; Escape returns NULL; Enter returns the buffer only when it is
non-empty (otherwise the loop just continues); any printable byte under 128 is
appended; everything else is ignored.  (With a callback the buffer and return
value are the same; the callback only mutates the editor state.) -/
def promptLoop : List Int → List Char → PromptResult
  | [], buf => .pending buf
  | c :: ks, buf =>
    if c = DEL_KEY ∨ c = 8 ∨ c = BACKSPACE then promptLoop ks buf.dropLast
    else if c = 27 then .canceled
    else if c = 13 then
      if buf ≠ [] then .submitted buf else promptLoop ks buf
    else if ¬ iscntrlI c ∧ c < 128 then promptLoop ks (buf ++ [Char.ofNat c.toNat])
    else promptLoop ks buf

/-- Keys dispatched by the switch of editorProcessKeypress (src/kilo.c lines
996-1074).  Ctrl-S and Ctrl-F (which enter the save/find subsystems, modelled
separately) and PageUp/PageDown (which use the viewport fields) are left out
of this enumeration; like every other non-Ctrl-Q case of the switch they
return normally and reach the quit_times reset at line 1076. -/
inductive EKey where
  | enter
  | ctrlQ
  | homeKey
  | endKey
  | backspace
  | ctrlH
  | delKey
  | arrowUp
  | arrowDown
  | arrowLeft
  | arrowRight
  | ctrlL
  | escape
  | other (c : Char)
deriving DecidableEq, Repr

/-- Outcome of one editorProcessKeypress call: the process exits, or the loop
continues with a new state and quit counter; `warnedQt` is `some n` when the
Ctrl-Q branch emitted the unsaved-changes warning displaying `n` remaining
presses (editorSetStatusMessage at lines 1004-1005). -/
inductive KpResult where
  | exited
  | cont (E : EState) (qt : Int) (warnedQt : Option Int)
deriving DecidableEq, Repr

/-- editorProcessKeypress (src/kilo.c lines 991-1077) for one decoded key:
the static quit_times counter is threaded explicitly.  Ctrl-Q on a dirty
buffer with quit_times > 0 warns, decrements quit_times and returns early
(skipping the reset); Ctrl-Q otherwise exits; every other key performs its
edit or move and falls through to quit_times = KILO_QUIT_TIMES. -/
def editorProcessKeypress (E : EState) (quit_times : Int) (key : EKey) : KpResult :=
  match key with
  | .enter => .cont (editorInsertNewline E) KILO_QUIT_TIMES none
  | .ctrlQ =>
    if E.dirty ≠ 0 ∧ quit_times > 0 then .cont E (quit_times - 1) (some quit_times)
    else .exited
  | .homeKey => .cont { E with cx := 0 } KILO_QUIT_TIMES none
  | .endKey =>
    .cont (if (E.cy : Int) < E.numrows then
             { E with cx := (E.rows.getD E.cy emptyRow).chars.length }
           else E) KILO_QUIT_TIMES none
  | .backspace => .cont (editorDelChar E) KILO_QUIT_TIMES none
  | .ctrlH => .cont (editorDelChar E) KILO_QUIT_TIMES none
  | .delKey => .cont (editorDelChar (editorMoveCursor E .right)) KILO_QUIT_TIMES none
  | .arrowUp => .cont (editorMoveCursor E .up) KILO_QUIT_TIMES none
  | .arrowDown => .cont (editorMoveCursor E .down) KILO_QUIT_TIMES none
  | .arrowLeft => .cont (editorMoveCursor E .left) KILO_QUIT_TIMES none
  | .arrowRight => .cont (editorMoveCursor E .right) KILO_QUIT_TIMES none
  | .ctrlL => .cont E KILO_QUIT_TIMES none
  | .escape => .cont E KILO_QUIT_TIMES none
  | .other c => .cont (editorInsertChar E c) KILO_QUIT_TIMES none

/-- The quit counter carried by a keypress outcome (none after exit). -/
def kpQt : KpResult → Option Int
  | .exited => none
  | .cont _ qt _ => some qt

/-- Trace of successive editorProcessKeypress outcomes over a key list,
stopping after an exit. -/
def keypressTrace (E : EState) (qt : Int) : List EKey → List KpResult
  | [] => []
  | k :: ks =>
    match editorProcessKeypress E qt k with
    | .exited => [.exited]
    | .cont E' qt' w => .cont E' qt' w :: keypressTrace E' qt' ks

/-- A concrete dirty one-line document: one character typed into a fresh
editor (dirty = 2 because editorInsertChar first inserts a row, then the
byte; both increment dirty). -/
def dirtyState : EState := editorInsertChar initState 'x'

/-- The editing and cursor-moving operations of claim C9: the four
editorMoveCursor directions, the Home and End handlers of
editorProcessKeypress, and the three buffer-editing operations. -/
inductive EdOp where
  | move (d : Dir)
  | home
  | endk
  | insCh (c : Char)
  | insNl
  | delCh
deriving DecidableEq, Repr

/-- Application of one C9 operation to the editor state. -/
def applyEdOp (E : EState) : EdOp → EState
  | .move d => editorMoveCursor E d
  | .home => { E with cx := 0 }
  | .endk =>
    if (E.cy : Int) < E.numrows then
      { E with cx := (E.rows.getD E.cy emptyRow).chars.length }
    else E
  | .insCh c => editorInsertChar E c
  | .insNl => editorInsertNewline E
  | .delCh => editorDelChar E

/-- The insertChar/deleteChar edit alphabet of claim C2. -/
inductive EditOp where
  | ins (c : Char)
  | del
deriving DecidableEq, Repr

/-- Application of a C2 edit. -/
def applyEdit (E : EState) : EditOp → EState
  | .ins c => editorInsertChar E c
  | .del => editorDelChar E

/-- Application of a sequence of C2 edits. -/
def applyEdits (ops : List EditOp) (E : EState) : EState :=
  ops.foldl applyEdit E

/-- Cursor invariant of claim C9 together with the well-formedness facts the
editing operations maintain: the cursor row is at most numrows, numrows agrees
with the row count, the cursor column is at most the length of the line it is
on, and is 0 when the cursor sits one past the last line. -/
def cursorOk (E : EState) : Prop :=
  (E.cy : Int) ≤ E.numrows ∧
  E.numrows = (E.rows.length : Int) ∧
  (E.cy < E.rows.length → E.cx ≤ (E.rows.getD E.cy emptyRow).chars.length) ∧
  (E.cy = E.rows.length → E.cx = 0)

instance (E : EState) : Decidable (cursorOk E) := by
  unfold cursorOk
  infer_instance

/-! ## Helper lemmas about the list primitives -/

theorem length_listInsertIdx (a : α) : ∀ (n : Nat) (l : List α),
    (listInsertIdx n a l).length = l.length + 1 := by
  intro n
  induction n with
  | zero => intro l; cases l <;> simp [listInsertIdx]
  | succ m ih => intro l; cases l <;> simp [listInsertIdx, ih]

theorem getD_listInsertIdx_self (a d : α) : ∀ (n : Nat) (l : List α), n ≤ l.length →
    (listInsertIdx n a l).getD n d = a := by
  intro n
  induction n with
  | zero => intro l _; cases l <;> simp [listInsertIdx]
  | succ m ih =>
    intro l h
    cases l with
    | nil => simp at h
    | cons x xs => simpa [listInsertIdx] using ih xs (by simpa using h)

theorem getD_listInsertIdx_lt (a d : α) : ∀ (n i : Nat) (l : List α), i < n → n ≤ l.length →
    (listInsertIdx n a l).getD i d = l.getD i d := by
  intro n
  induction n with
  | zero => intro i l h _; omega
  | succ m ih =>
    intro i l h hn
    cases l with
    | nil => simp at hn
    | cons x xs =>
      cases i with
      | zero => simp [listInsertIdx]
      | succ j => simpa [listInsertIdx] using ih j xs (by omega) (by simpa using hn)

theorem length_listEraseIdx : ∀ (n : Nat) (l : List α), n < l.length →
    (listEraseIdx n l).length = l.length - 1 := by
  intro n
  induction n with
  | zero => intro l h; cases l with | nil => simp at h | cons x xs => simp [listEraseIdx]
  | succ m ih =>
    intro l h
    cases l with
    | nil => simp at h
    | cons x xs =>
      have hx : m < xs.length := by simpa using h
      have := ih xs hx
      simp [listEraseIdx, this]
      omega

theorem getD_listEraseIdx_lt (d : α) : ∀ (n i : Nat) (l : List α), i < n →
    (listEraseIdx n l).getD i d = l.getD i d := by
  intro n
  induction n with
  | zero => intro i l h; omega
  | succ m ih =>
    intro i l h
    cases l with
    | nil => simp [listEraseIdx]
    | cons x xs =>
      cases i with
      | zero => simp [listEraseIdx]
      | succ j => simpa [listEraseIdx] using ih j xs (by omega)

theorem getD_set_self (a d : α) : ∀ (i : Nat) (l : List α), i < l.length →
    (l.set i a).getD i d = a := by
  intro i
  induction i with
  | zero => intro l h; cases l with | nil => simp at h | cons x xs => simp
  | succ m ih =>
    intro l h
    cases l with
    | nil => simp at h
    | cons x xs => simpa using ih xs (by simpa using h)

theorem getD_set_ne (a d : α) : ∀ (i j : Nat) (l : List α), i ≠ j →
    (l.set i a).getD j d = l.getD j d := by
  intro i
  induction i with
  | zero =>
    intro j l h
    cases l with
    | nil => simp
    | cons x xs => cases j with | zero => omega | succ k => simp
  | succ m ih =>
    intro j l h
    cases l with
    | nil => simp
    | cons x xs =>
      cases j with
      | zero => simp
      | succ k => simpa using ih k xs (by omega)

/-! ## Claim C6: rowRxToCx is a left inverse of rowCxToRx -/

theorem advanceRx_gt (rx : Nat) (c : Char) : rx < advanceRx rx c := by
  unfold advanceRx
  split <;> omega

theorem cxToRxGo_ge (cs : List Char) : ∀ rx : Nat, rx ≤ cxToRxGo cs rx := by
  induction cs with
  | nil => intro rx; simp [cxToRxGo]
  | cons c cs ih =>
    intro rx
    calc rx ≤ advanceRx rx c := Nat.le_of_lt (advanceRx_gt rx c)
    _ ≤ cxToRxGo cs (advanceRx rx c) := ih _
    _ = cxToRxGo (c :: cs) rx := rfl

theorem rxToCx_cxToRx_go (cs : List Char) :
    ∀ (n rx acc : Nat), n ≤ cs.length →
      rxToCxGo cs (cxToRxGo (cs.take n) rx) rx acc = acc + n := by
  induction cs with
  | nil =>
    intro n rx acc h
    simp only [List.length_nil, Nat.le_zero] at h
    subst h
    simp [cxToRxGo, rxToCxGo]
  | cons c cs ih =>
    intro n rx acc h
    cases n with
    | zero =>
      simp only [List.take_zero, cxToRxGo, rxToCxGo, Nat.add_zero]
      rw [if_pos (advanceRx_gt rx c)]
    | succ m =>
      have hm : m ≤ cs.length := by simpa using h
      have htake : (c :: cs).take (m + 1) = c :: cs.take m := rfl
      rw [htake]
      show rxToCxGo (c :: cs) (cxToRxGo (cs.take m) (advanceRx rx c)) rx acc = acc + (m + 1)
      have hnot : ¬ advanceRx rx c > cxToRxGo (cs.take m) (advanceRx rx c) := by
        have := cxToRxGo_ge (cs.take m) (advanceRx rx c)
        omega
      simp only [rxToCxGo]
      rw [if_neg hnot]
      rw [ih m (advanceRx rx c) (acc + 1) hm]
      omega

/-- Claim C6: for every line (tabs or not) and every valid byte-column `cx`
into that line, converting to the display column under tab expansion with
editorRowCxToRx and back with editorRowRxToCx is the identity. -/
theorem rowRxToCx_rowCxToRx_id (chars : List Char) (cx : Nat) (h : cx ≤ chars.length) :
    editorRowRxToCx chars (editorRowCxToRx chars cx) = cx := by
  unfold editorRowRxToCx editorRowCxToRx
  simpa using rxToCx_cxToRx_go chars cx 0 0 h

/-- Witness for C6 on a line mixing tabs and regular characters. -/
theorem rowRxToCx_rowCxToRx_id_witness :
    5 ≤ ("a\tbc\td".toList).length ∧
      editorRowRxToCx ("a\tbc\td".toList) (editorRowCxToRx ("a\tbc\td".toList) 5) = 5 :=
  ⟨by decide, rowRxToCx_rowCxToRx_id ("a\tbc\td".toList) 5 (by decide)⟩

/-! ## Claim C2: serialization is the newline-joined concatenation -/

theorem serialize_eq_join (rows : List Erow) :
    editorRowsToString rows = (rows.map (fun r => r.chars ++ ['\n'])).flatten := by
  induction rows with
  | nil => simp [editorRowsToString]
  | cons r rs ih => simp [editorRowsToString, ih]

theorem serialize_length (rows : List Erow) :
    (editorRowsToString rows).length = (rows.map (fun r => r.chars.length + 1)).sum := by
  induction rows with
  | nil => simp [editorRowsToString]
  | cons r rs ih => simp [editorRowsToString, ih]; omega

theorem buflen_eq_serialize_length (rows : List Erow) :
    rowsToStringBuflen rows = ((editorRowsToString rows).length : Int) := by
  induction rows with
  | nil => simp [editorRowsToString, rowsToStringBuflen]
  | cons r rs ih => simp [editorRowsToString, rowsToStringBuflen, ih]; omega

/-- Claim C2: editorRowsToString returns exactly each line's bytes followed by
one newline, in line order; the length reported through buflen is the length
of that buffer and equals the sum over lines of (length + 1); in particular
this holds for the document reached by any sequence of insertChar/deleteChar
edits. -/
theorem serialize_spec (rows : List Erow) :
    editorRowsToString rows = (rows.map (fun r => r.chars ++ ['\n'])).flatten ∧
    rowsToStringBuflen rows = ((editorRowsToString rows).length : Int) ∧
    (editorRowsToString rows).length = (rows.map (fun r => r.chars.length + 1)).sum ∧
    ∀ (ops : List EditOp) (E : EState),
      (editorRowsToString (applyEdits ops E).rows).length
        = ((applyEdits ops E).rows.map (fun r => r.chars.length + 1)).sum :=
  ⟨serialize_eq_join rows, buflen_eq_serialize_length rows, serialize_length rows,
   fun ops E => serialize_length (applyEdits ops E).rows⟩

/-! ## Claim C8: deleteChar at document start is a no-op (twice) -/

/-- Claim C8: with the cursor at line 0, column 0, editorDelChar leaves the
whole state (cursor, rows, numrows, dirty) unchanged, and so do two
consecutive calls. -/
theorem delChar_at_origin_noop (E : EState) (hcx : E.cx = 0) (hcy : E.cy = 0) :
    editorDelChar E = E ∧ editorDelChar (editorDelChar E) = E := by
  have h1 : editorDelChar E = E := by
    unfold editorDelChar
    split
    · rfl
    · rw [if_pos ⟨hcx, hcy⟩]
  exact ⟨h1, by rw [h1, h1]⟩

/-- Witness for C8 at the freshly initialized editor state. -/
theorem delChar_at_origin_noop_witness :
    initState.cx = 0 ∧ initState.cy = 0 ∧
      editorDelChar initState = initState ∧
      editorDelChar (editorDelChar initState) = initState :=
  ⟨rfl, rfl, (delChar_at_origin_noop initState rfl rfl).1,
   (delChar_at_origin_noop initState rfl rfl).2⟩

/-! ## Claim C4: deleteRow out of range -/

/-- Claim C4 (refuting evidence): on a one-line document, editorDelRow at the
out-of-range index 1 (= numrows, outside [0, N-1]) is NOT a silent no-op: the
range guard `at < 0 || at > E.numrows` of src/kilo.c line 401 uses `>` instead
of `>=`, so the deletion path runs, decrementing the line count (and dirty)
while the row array keeps its one row — in C this path also frees and memmoves
past the end of the array.  In-range behaviour for at < 0 and at > numrows is
a genuine no-op, as the last two conjuncts show. -/
theorem delRow_at_numrows_not_noop :
    (editorDelRow { initState with numrows := 1, rows := [editorUpdateRow ['x']] } 1).numrows = 0 ∧
    (editorDelRow { initState with numrows := 1, rows := [editorUpdateRow ['x']] } 1).dirty = -1 ∧
    (editorDelRow { initState with numrows := 1, rows := [editorUpdateRow ['x']] } 1).rows
      = [editorUpdateRow ['x']] ∧
    (editorDelRow { initState with numrows := 1, rows := [editorUpdateRow ['x']] } (-1))
      = { initState with numrows := 1, rows := [editorUpdateRow ['x']] } ∧
    (editorDelRow { initState with numrows := 1, rows := [editorUpdateRow ['x']] } 2)
      = { initState with numrows := 1, rows := [editorUpdateRow ['x']] } := by
  refine ⟨rfl, rfl, rfl, ?_, ?_⟩ <;> decide

/-! ## Claim C5: decoding of ESC O H / ESC O F -/

/-- Claim C5 (refuting evidence): the decoder maps the byte sequence
ESC 'O' 'H' (and ESC 'O' 'F') to plain Escape (27), not Home/End, because
src/kilo.c line 196 compares seq[0] with the digit '0' (0x30) instead of the
letter 'O' (0x4F); the digit variants ESC '0' H / ESC '0' F are the ones that
decode to Home and End. -/
theorem escOH_decodes_to_escape :
    editorReadKey ['\x1b', 'O', 'H'] = 27 ∧
    editorReadKey ['\x1b', 'O', 'F'] = 27 ∧
    editorReadKey ['\x1b', '0', 'H'] = HOME_KEY ∧
    editorReadKey ['\x1b', '0', 'F'] = END_KEY := by
  refine ⟨?_, ?_, ?_, ?_⟩ <;> decide

/-! ## Claim C7: the search scenario on ["Hello", "World"] -/

/-- Claim C7: in a fresh forward search of the document ["Hello","World"]
with query "lo" (callback key: the plain byte just typed), the callback moves
the cursor to line 0, byte-column 3, overwrites the highlight of display
columns 3 and 4 of that line with HL_MATCH, and saves the previous highlight
array of that line; the next callback invocation (next search keystroke, here
Enter) restores it. -/
theorem find_hello_world_scenario :
    let doc : EState :=
      { initState with
        numrows := 2,
        rows := [editorUpdateRow ("Hello".toList), editorUpdateRow ("World".toList)] }
    let r := editorFindCallback doc initFindState ("lo".toList) (('o'.toNat : Int))
    r.1.cy = 0 ∧ r.1.cx = 3 ∧
    (r.1.rows.getD 0 emptyRow).hl = [HL_NORMAL, HL_NORMAL, HL_NORMAL, HL_MATCH, HL_MATCH] ∧
    r.2.saved_hl = some [HL_NORMAL, HL_NORMAL, HL_NORMAL, HL_NORMAL, HL_NORMAL] ∧
    r.2.saved_hl_line = 0 ∧
    ((editorFindCallback r.1 r.2 ("lo".toList) 13).1.rows.getD 0 emptyRow).hl
      = [HL_NORMAL, HL_NORMAL, HL_NORMAL, HL_NORMAL, HL_NORMAL] := by
  decide

/-! ## Claim C1: the quit-confirmation counter -/

/-- Claim C1 (refuting evidence): on a dirty buffer with KILO_QUIT_TIMES = 3,
the third consecutive Ctrl-Q press still emits a warning (displaying 1
remaining press) and does NOT exit; the editor is unchanged after all three
presses. -/
theorem quit_third_press_does_not_exit :
    keypressTrace dirtyState 3 [.ctrlQ, .ctrlQ, .ctrlQ]
      = [.cont dirtyState 2 (some 3), .cont dirtyState 1 (some 2),
         .cont dirtyState 0 (some 1)] := by
  decide

/-- Claim C1 (amended): starting from any dirty state with the counter at
KILO_QUIT_TIMES = 3, the editor exits on the FOURTH consecutive Ctrl-Q press
and not before; each of the first three presses emits the unsaved-changes
warning (displaying 3, 2, 1 remaining presses) instead of exiting, and any
other dispatched keypress resets the counter back to 3. -/
theorem quit_requires_four_presses (E : EState) (h : E.dirty ≠ 0) :
    keypressTrace E 3 [.ctrlQ, .ctrlQ, .ctrlQ, .ctrlQ]
      = [.cont E 2 (some 3), .cont E 1 (some 2), .cont E 0 (some 1), .exited] ∧
    ∀ (qt : Int) (k : EKey), k ≠ .ctrlQ →
      kpQt (editorProcessKeypress E qt k) = some KILO_QUIT_TIMES := by
  constructor
  · have s1 : editorProcessKeypress E 3 .ctrlQ = .cont E 2 (some 3) := by
      unfold editorProcessKeypress
      rw [if_pos ⟨h, by norm_num⟩]
      norm_num
    have s2 : editorProcessKeypress E 2 .ctrlQ = .cont E 1 (some 2) := by
      unfold editorProcessKeypress
      rw [if_pos ⟨h, by norm_num⟩]
      norm_num
    have s3 : editorProcessKeypress E 1 .ctrlQ = .cont E 0 (some 1) := by
      unfold editorProcessKeypress
      rw [if_pos ⟨h, by norm_num⟩]
      norm_num
    have s4 : editorProcessKeypress E 0 .ctrlQ = .exited := by
      unfold editorProcessKeypress
      rw [if_neg]
      rintro ⟨-, h0⟩
      omega
    simp [keypressTrace, s1, s2, s3, s4]
  · intro qt k hk
    cases k with
    | ctrlQ => exact absurd rfl hk
    | _ => rfl

/-- Witness for the amended C1 at a concrete dirty state. -/
theorem quit_requires_four_presses_witness :
    dirtyState.dirty ≠ 0 ∧ EKey.arrowUp ≠ EKey.ctrlQ ∧
      kpQt (editorProcessKeypress dirtyState 7 .arrowUp) = some KILO_QUIT_TIMES :=
  ⟨by decide, by decide,
   (quit_requires_four_presses dirtyState (by decide)).2 7 .arrowUp (by decide)⟩

/-! ## Claim C10: the prompt loop -/

theorem promptLoop_canceled_mem : ∀ (ks : List Int) (buf : List Char),
    promptLoop ks buf = .canceled → (27 : Int) ∈ ks := by
  intro ks
  induction ks with
  | nil => intro buf h; simp [promptLoop] at h
  | cons c ks ih =>
    intro buf h
    by_cases h1 : c = DEL_KEY ∨ c = 8 ∨ c = BACKSPACE
    · rw [promptLoop, if_pos h1] at h
      exact List.mem_cons_of_mem _ (ih _ h)
    · by_cases h2 : c = 27
      · subst h2; exact List.mem_cons_self _ _
      · rw [promptLoop, if_neg h1, if_neg h2] at h
        by_cases h3 : c = 13
        · rw [if_pos h3] at h
          by_cases h4 : buf ≠ []
          · rw [if_pos h4] at h; exact absurd h (by simp)
          · rw [if_neg h4] at h; exact List.mem_cons_of_mem _ (ih _ h)
        · rw [if_neg h3] at h
          split at h <;> exact List.mem_cons_of_mem _ (ih _ h)

theorem promptLoop_submitted_mem : ∀ (ks : List Int) (buf : List Char) (s : List Char),
    promptLoop ks buf = .submitted s → s ≠ [] ∧ (13 : Int) ∈ ks := by
  intro ks
  induction ks with
  | nil => intro buf s h; simp [promptLoop] at h
  | cons c ks ih =>
    intro buf s h
    by_cases h1 : c = DEL_KEY ∨ c = 8 ∨ c = BACKSPACE
    · rw [promptLoop, if_pos h1] at h
      obtain ⟨hs, hm⟩ := ih _ _ h
      exact ⟨hs, List.mem_cons_of_mem _ hm⟩
    · by_cases h2 : c = 27
      · rw [promptLoop, if_neg h1, if_pos h2] at h
        exact absurd h (by simp)
      · rw [promptLoop, if_neg h1, if_neg h2] at h
        by_cases h3 : c = 13
        · rw [if_pos h3] at h
          by_cases h4 : buf ≠ []
          · rw [if_pos h4] at h
            have hs : s = buf := by
              have := h
              simp only [PromptResult.submitted.injEq] at this
              exact this.symm
            subst h3 hs
            exact ⟨h4, List.mem_cons_self _ _⟩
          · rw [if_neg h4] at h
            obtain ⟨hs, hm⟩ := ih _ _ h
            exact ⟨hs, List.mem_cons_of_mem _ hm⟩
        · rw [if_neg h3] at h
          split at h <;>
            (obtain ⟨hs, hm⟩ := ih _ _ h; exact ⟨hs, List.mem_cons_of_mem _ hm⟩)

/-- Claim C10: in the editorPrompt loop, Enter on an empty buffer neither
returns nor closes the prompt (the loop simply continues); the prompt returns
NULL exactly when Escape is pressed (Escape immediately cancels, and a
canceled run always contains an Escape), and returns the accumulated input
exactly when Enter is pressed with non-empty input (Enter on a non-empty
buffer immediately submits it, and any submitted result is non-empty and
comes from an Enter). -/
theorem prompt_enter_escape_behaviour (ks : List Int) (buf : List Char) :
    promptLoop (27 :: ks) buf = .canceled ∧
    promptLoop (13 :: ks) [] = promptLoop ks [] ∧
    (buf ≠ [] → promptLoop (13 :: ks) buf = .submitted buf) ∧
    (promptLoop ks buf = .canceled → (27 : Int) ∈ ks) ∧
    (∀ s, promptLoop ks buf = .submitted s → s ≠ [] ∧ (13 : Int) ∈ ks) := by
  refine ⟨?_, ?_, ?_, promptLoop_canceled_mem ks buf, promptLoop_submitted_mem ks buf⟩
  · rw [promptLoop, if_neg (by norm_num [DEL_KEY, BACKSPACE]), if_pos rfl]
  · rw [promptLoop, if_neg (by norm_num [DEL_KEY, BACKSPACE]), if_neg (by norm_num),
        if_pos rfl, if_neg (by simp)]
  · intro hb
    rw [promptLoop, if_neg (by norm_num [DEL_KEY, BACKSPACE]), if_neg (by norm_num),
        if_pos rfl, if_pos hb]

/-- Witness for C10 on concrete key sequences. -/
theorem prompt_enter_escape_behaviour_witness :
    promptLoop [27] ['a'] = .canceled ∧
    promptLoop [13] [] = promptLoop [] [] ∧
    (['a'] ≠ [] ∧ promptLoop [13] ['a'] = .submitted ['a']) :=
  ⟨(prompt_enter_escape_behaviour [] ['a']).1,
   (prompt_enter_escape_behaviour [] []).2.1,
   by decide,
   (prompt_enter_escape_behaviour [] ['a']).2.2.1 (by decide)⟩

/-! ## Claim C3: load-then-serialize round trip -/

theorem editorUpdateRow_chars (s : List Char) : (editorUpdateRow s).chars = s := rfl

theorem listInsertIdx_length_append (l : List α) (a : α) :
    listInsertIdx l.length a l = l ++ [a] := by
  induction l with
  | nil => rfl
  | cons x xs ih => simp [listInsertIdx, ih]

theorem editorInsertRow_append (E : EState) (s : List Char)
    (h : E.numrows = (E.rows.length : Int)) :
    editorInsertRow E E.numrows s
      = { E with rows := E.rows ++ [editorUpdateRow s],
                 numrows := E.numrows + 1,
                 dirty := E.dirty + 1 } := by
  unfold editorInsertRow
  rw [if_neg (by omega)]
  have ht : E.numrows.toNat = E.rows.length := by omega
  rw [ht, listInsertIdx_length_append]

theorem open_foldl_rows : ∀ (ls : List (List Char)) (E : EState),
    E.numrows = (E.rows.length : Int) →
    (ls.foldl (fun Ei line => editorInsertRow Ei Ei.numrows (stripTrailingNlCr line)) E).rows
      = E.rows ++ ls.map (fun l => editorUpdateRow (stripTrailingNlCr l)) := by
  intro ls
  induction ls with
  | nil => intro E _; simp
  | cons l ls ih =>
    intro E h
    simp only [List.foldl_cons, List.map_cons]
    rw [editorInsertRow_append E _ h, ih _ (by simp [h])]
    simp

theorem editorOpen_serialize (content : List Char) :
    editorRowsToString (editorOpen initState content).rows
      = ((getlineChunks [] content).map (fun l => stripTrailingNlCr l ++ ['\n'])).flatten := by
  show editorRowsToString
      (((getlineChunks [] content).foldl
        (fun Ei line => editorInsertRow Ei Ei.numrows (stripTrailingNlCr line)) initState).rows)
    = _
  rw [open_foldl_rows _ initState (by rfl)]
  rw [serialize_eq_join]
  simp [initState, List.map_map, Function.comp_def, editorUpdateRow_chars]

theorem dropWhile_eq_self_of_forall (p : α → Bool) :
    ∀ l : List α, (∀ a ∈ l, p a = false) → l.dropWhile p = l := by
  intro l h
  cases l with
  | nil => rfl
  | cons x xs =>
    rw [List.dropWhile_cons, h x (by simp)]
    simp

theorem strip_append_newline (x : List Char)
    (hx : ∀ a ∈ x, a ≠ '\n' ∧ a ≠ '\r') :
    stripTrailingNlCr (x ++ ['\n']) = x := by
  unfold stripTrailingNlCr
  rw [List.reverse_append]
  have h1 : (['\n'] : List Char).reverse ++ x.reverse = '\n' :: x.reverse := by simp
  rw [h1, List.dropWhile_cons]
  have h2 : ((('\n' : Char) = '\n' : Bool) || (('\n' : Char) = '\r' : Bool)) = true := by decide
  rw [if_pos h2]
  have hforall : ∀ a ∈ x.reverse, (((a = '\n') : Bool) || ((a = '\r') : Bool)) = false := by
    intro a ha
    rw [List.mem_reverse] at ha
    obtain ⟨h3, h4⟩ := hx a ha
    simp [h3, h4]
  rw [dropWhile_eq_self_of_forall _ _ hforall, List.reverse_reverse]

theorem getLast?_cons_of_ne_nil (a : α) (l : List α) (h : l ≠ []) :
    (a :: l).getLast? = l.getLast? := by
  cases l with
  | nil => exact absurd rfl h
  | cons b bs => exact List.getLast?_cons_cons

theorem chunks_rebuild : ∀ (content acc : List Char),
    (∀ a ∈ acc, a ≠ '\n' ∧ a ≠ '\r') → (∀ a ∈ content, a ≠ '\r') →
    content.getLast? = some '\n' →
    ((getlineChunks acc content).map (fun l => stripTrailingNlCr l ++ ['\n'])).flatten
      = acc.reverse ++ content := by
  intro content
  induction content with
  | nil => intro acc _ _ hlast; simp at hlast
  | cons c cs ih =>
    intro acc hacc hcr hlast
    by_cases hc : c = '\n'
    · subst hc
      have hunfold : getlineChunks acc ('\n' :: cs)
          = ('\n' :: acc).reverse :: getlineChunks [] cs := by
        simp [getlineChunks]
      rw [hunfold]
      have hrev : ('\n' :: acc).reverse = acc.reverse ++ ['\n'] := by simp
      have hstrip : stripTrailingNlCr (acc.reverse ++ ['\n']) = acc.reverse := by
        refine strip_append_newline _ ?_
        intro a ha
        rw [List.mem_reverse] at ha
        exact hacc a ha
      cases cs with
      | nil =>
        simp only [getlineChunks, List.isEmpty_nil, List.map_cons, List.map_nil,
          List.flatten_cons, List.flatten_nil, List.append_nil, if_pos]
        rw [hrev, hstrip]
      | cons d ds =>
        have hrest := ih [] (by simp)
          (fun a ha => hcr a (List.mem_cons_of_mem _ ha))
          (by rw [← getLast?_cons_of_ne_nil '\n' (d :: ds) (by simp)]; exact hlast)
        simp only [List.map_cons, List.flatten_cons, hrest]
        rw [hrev, hstrip]
        simp
    · have hcs : cs ≠ [] := by
        intro hnil
        subst hnil
        simp [List.getLast?] at hlast
        exact hc hlast
      have hunfold : getlineChunks acc (c :: cs) = getlineChunks (c :: acc) cs := by
        simp [getlineChunks, hc]
      rw [hunfold]
      have hrest := ih (c :: acc)
        (by
          intro a ha
          rcases List.mem_cons.1 ha with h | h
          · rw [h]
            exact ⟨hc, hcr c (List.mem_cons_self c cs)⟩
          · exact hacc a h)
        (fun a ha => hcr a (List.mem_cons_of_mem _ ha))
        (by rw [← getLast?_cons_of_ne_nil c cs hcs]; exact hlast)
      rw [hrest]
      simp

/-- Claim C3 (refuting evidence): the file content "a\rb\n" contains a
carriage return that is not part of a line ending; loading then serializing
reproduces it verbatim, so a '\r' byte DOES remain in the serialized output. -/
theorem load_serialize_keeps_interior_cr :
    editorRowsToString (editorOpen initState ("a\rb\n".toList)).rows = "a\rb\n".toList ∧
    '\r' ∈ editorRowsToString (editorOpen initState ("a\rb\n".toList)).rows := by
  refine ⟨?_, ?_⟩ <;> decide

/-- Claim C3 (amended): immediately after editorOpen the dirty counter is
zero, and serializing yields, for each getline chunk of the original content,
the chunk with its trailing run of '\n'/'\r' bytes replaced by a single '\n'
(so line-ending '\r' bytes are removed and an unterminated final line gains a
newline, while '\r' bytes in the middle of a line are preserved, not
removed); in particular, when the content has no '\r' at all and ends with
'\n', loading then serializing reproduces it exactly. -/
theorem load_serialize_roundtrip (content : List Char) :
    (editorOpen initState content).dirty = 0 ∧
    editorRowsToString (editorOpen initState content).rows
      = ((getlineChunks [] content).map (fun l => stripTrailingNlCr l ++ ['\n'])).flatten ∧
    ((∀ a ∈ content, a ≠ '\r') → content.getLast? = some '\n' →
      editorRowsToString (editorOpen initState content).rows = content) := by
  refine ⟨rfl, editorOpen_serialize content, ?_⟩
  intro hcr hlast
  rw [editorOpen_serialize content]
  simpa using chunks_rebuild content [] (by simp) hcr hlast

/-- Witness for the amended C3 on a concrete '\r'-free newline-terminated
content. -/
theorem load_serialize_roundtrip_witness :
    (∀ a ∈ ("hi\nthere\n".toList), a ≠ '\r') ∧
    ("hi\nthere\n".toList).getLast? = some '\n' ∧
    editorRowsToString (editorOpen initState ("hi\nthere\n".toList)).rows
      = "hi\nthere\n".toList :=
  ⟨by decide, by decide,
   (load_serialize_roundtrip ("hi\nthere\n".toList)).2.2 (by decide) (by decide)⟩

/-! ## Claim C9: the cursor invariant is preserved -/

theorem cursorOk_snapCursor (E : EState)
    (h1 : (E.cy : Int) ≤ E.numrows) (h2 : E.numrows = (E.rows.length : Int)) :
    cursorOk (snapCursor E) := by
  unfold snapCursor
  by_cases hge : (E.cy : Int) ≥ E.numrows
  · rw [if_pos hge]
    by_cases hx : E.cx > 0
    · rw [if_pos hx]
      refine ⟨h1, h2, ?_, ?_⟩ <;> intro h <;> simp_all
    · rw [if_neg hx]
      refine ⟨h1, h2, ?_, ?_⟩ <;> intro h <;> simp_all
  · rw [if_neg hge]
    have hlt : E.cy < E.rows.length := by omega
    by_cases hx : E.cx > (E.rows.getD E.cy emptyRow).chars.length
    · rw [if_pos hx]
      refine ⟨h1, h2, ?_, ?_⟩ <;> intro h <;> simp_all
    · rw [if_neg hx]
      refine ⟨h1, h2, ?_, ?_⟩ <;> intro h <;> simp_all

theorem moveStep_wf (E : EState) (d : Dir)
    (h1 : (E.cy : Int) ≤ E.numrows) (h2 : E.numrows = (E.rows.length : Int)) :
    ((moveStep E d).cy : Int) ≤ (moveStep E d).numrows ∧
    (moveStep E d).numrows = ((moveStep E d).rows.length : Int) := by
  cases d <;> simp only [moveStep] <;> split_ifs <;>
    constructor <;> simp_all <;> omega

theorem cursorOk_moveCursor (E : EState) (d : Dir) (h : cursorOk E) :
    cursorOk (editorMoveCursor E d) := by
  obtain ⟨h1, h2, _, _⟩ := h
  exact cursorOk_snapCursor _ (moveStep_wf E d h1 h2).1 (moveStep_wf E d h1 h2).2

theorem getD_append_self (l : List α) (a d : α) : (l ++ [a]).getD l.length d = a := by
  induction l with
  | nil => rfl
  | cons x xs ih => simp [ih]

theorem length_insert_at (l : List α) (n : Nat) (c : α) (h : n ≤ l.length) :
    (l.take n ++ c :: l.drop n).length = l.length + 1 := by
  simp
  omega

theorem editorRowInsertChar_inbounds (E : EState) (i : Nat) (cx : Nat) (c : Char)
    (hcx : cx ≤ (E.rows.getD i emptyRow).chars.length) :
    editorRowInsertChar E i (cx : Int) c
      = { E with
          rows := E.rows.set i (editorUpdateRow
            ((E.rows.getD i emptyRow).chars.take cx ++ c :: (E.rows.getD i emptyRow).chars.drop cx)),
          dirty := E.dirty + 1 } := by
  simp only [editorRowInsertChar]
  rw [if_neg (by omega)]
  have ht : ((cx : Int)).toNat = cx := by omega
  rw [ht]

theorem cursorOk_insertChar (E : EState) (c : Char) (h : cursorOk E) :
    cursorOk (editorInsertChar E c) := by
  obtain ⟨h1, h2, h3, h4⟩ := h
  by_cases heq : (E.cy : Int) = E.numrows
  · have hcy : E.cy = E.rows.length := by omega
    have hcx : E.cx = 0 := h4 hcy
    simp only [editorInsertChar]
    rw [if_pos heq, editorInsertRow_append E [] h2]
    set E1 : EState := { E with rows := E.rows ++ [editorUpdateRow []],
                                numrows := E.numrows + 1,
                                dirty := E.dirty + 1 } with hE1
    have hrow : E1.rows.getD E1.cy emptyRow = editorUpdateRow [] := by
      show (E.rows ++ [editorUpdateRow []]).getD E.cy emptyRow = editorUpdateRow []
      rw [hcy]
      exact getD_append_self _ _ _
    have hb : E1.cx ≤ (E1.rows.getD E1.cy emptyRow).chars.length := by
      rw [hrow]
      show E.cx ≤ ([] : List Char).length
      omega
    rw [editorRowInsertChar_inbounds E1 E1.cy E1.cx c hb]
    rw [hrow]
    refine ⟨?_, ?_, ?_, ?_⟩
    · show (E.cy : Int) ≤ E.numrows + 1
      omega
    · show E.numrows + 1 = (((E.rows ++ [editorUpdateRow []]).set E.cy _).length : Int)
      simp
      omega
    · intro hlt
      show E.cx + 1 ≤ (((E.rows ++ [editorUpdateRow []]).set E.cy
        (editorUpdateRow (List.take E.cx (editorUpdateRow []).chars
          ++ c :: List.drop E.cx (editorUpdateRow []).chars))).getD E.cy emptyRow).chars.length
      rw [getD_set_self _ _ _ _ (by simp [hcy])]
      simp [editorUpdateRow, hcx]
    · intro hfalse
      show E.cx + 1 = 0
      simp at hfalse
      omega
  · have hlt : E.cy < E.rows.length := by omega
    have hb : E.cx ≤ (E.rows.getD E.cy emptyRow).chars.length := h3 hlt
    simp only [editorInsertChar]
    rw [if_neg heq, editorRowInsertChar_inbounds E E.cy E.cx c hb]
    refine ⟨?_, ?_, ?_, ?_⟩
    · show (E.cy : Int) ≤ E.numrows
      exact h1
    · show E.numrows = ((E.rows.set E.cy _).length : Int)
      simp
      omega
    · intro _
      show E.cx + 1 ≤ ((E.rows.set E.cy
        (editorUpdateRow (List.take E.cx (E.rows.getD E.cy emptyRow).chars
          ++ c :: List.drop E.cx (E.rows.getD E.cy emptyRow).chars))).getD E.cy emptyRow).chars.length
      rw [getD_set_self _ _ _ _ hlt]
      rw [editorUpdateRow_chars, length_insert_at _ _ _ hb]
      omega
    · intro hfalse
      simp at hfalse
      omega

theorem editorInsertRow_inbounds (E : EState) (at_ : Int) (s : List Char)
    (h0 : 0 ≤ at_) (h : at_ ≤ E.numrows) :
    editorInsertRow E at_ s
      = { E with rows := listInsertIdx at_.toNat (editorUpdateRow s) E.rows,
                 numrows := E.numrows + 1, dirty := E.dirty + 1 } := by
  unfold editorInsertRow
  rw [if_neg (by omega)]

theorem editorDelRow_inbounds (E : EState) (at_ : Int)
    (h0 : 0 ≤ at_) (h : at_ ≤ E.numrows) :
    editorDelRow E at_
      = { E with rows := listEraseIdx at_.toNat E.rows,
                 numrows := E.numrows - 1, dirty := E.dirty - 1 } := by
  unfold editorDelRow
  rw [if_neg (by omega)]

theorem editorRowDelChar_inbounds (E : EState) (i : Nat) (at_ : Nat)
    (h : at_ < (E.rows.getD i emptyRow).chars.length) :
    editorRowDelChar E i (at_ : Int)
      = { E with
          rows := E.rows.set i (editorUpdateRow
            ((E.rows.getD i emptyRow).chars.take at_
              ++ (E.rows.getD i emptyRow).chars.drop (at_ + 1))),
          dirty := E.dirty + 1 } := by
  simp only [editorRowDelChar]
  rw [if_neg (by omega)]
  have ht : ((at_ : Int)).toNat = at_ := by omega
  rw [ht]

theorem length_delete_at (l : List α) (n : Nat) (h : n < l.length) :
    (l.take n ++ l.drop (n + 1)).length = l.length - 1 := by
  simp
  omega

theorem cursorOk_insertNewline (E : EState) (h : cursorOk E) :
    cursorOk (editorInsertNewline E) := by
  obtain ⟨h1, h2, h3, h4⟩ := h
  by_cases hcx : E.cx = 0
  · simp only [editorInsertNewline]
    rw [if_pos hcx, editorInsertRow_inbounds E (E.cy : Int) [] (by omega) h1]
    refine ⟨?_, ?_, ?_, ?_⟩
    · show ((E.cy + 1 : Nat) : Int) ≤ E.numrows + 1
      omega
    · show E.numrows + 1 = ((listInsertIdx (E.cy : Int).toNat (editorUpdateRow []) E.rows).length : Int)
      rw [length_listInsertIdx]
      omega
    · intro _
      exact Nat.zero_le _
    · intro _
      rfl
  · have hlt : E.cy < E.rows.length := by
      rcases Nat.lt_or_ge E.cy E.rows.length with hl | hg
      · exact hl
      · exact absurd (h4 (by omega)) hcx
    simp only [editorInsertNewline]
    rw [if_neg hcx]
    rw [editorInsertRow_inbounds E ((E.cy : Int) + 1) _ (by omega) (by omega)]
    refine ⟨?_, ?_, ?_, ?_⟩
    · show ((E.cy + 1 : Nat) : Int) ≤ E.numrows + 1
      omega
    · show E.numrows + 1 = _
      simp only [List.length_set]
      rw [length_listInsertIdx]
      omega
    · intro _
      exact Nat.zero_le _
    · intro _
      rfl

theorem cursorOk_delChar (E : EState) (h : cursorOk E) :
    cursorOk (editorDelChar E) := by
  obtain ⟨h1, h2, h3, h4⟩ := h
  unfold editorDelChar
  by_cases heq : (E.cy : Int) = E.numrows
  · rw [if_pos heq]
    exact ⟨h1, h2, h3, h4⟩
  · rw [if_neg heq]
    have hlt : E.cy < E.rows.length := by omega
    have hb : E.cx ≤ (E.rows.getD E.cy emptyRow).chars.length := h3 hlt
    by_cases hor : E.cx = 0 ∧ E.cy = 0
    · rw [if_pos hor]
      exact ⟨h1, h2, h3, h4⟩
    · rw [if_neg hor]
      by_cases hx : E.cx > 0
      · rw [if_pos hx]
        have hc : (E.cx : Int) - 1 = ((E.cx - 1 : Nat) : Int) := by omega
        rw [hc, editorRowDelChar_inbounds E E.cy (E.cx - 1) (by omega)]
        refine ⟨?_, ?_, ?_, ?_⟩
        · exact h1
        · show E.numrows = _
          simp only [List.length_set]
          omega
        · intro _
          show E.cx - 1 ≤ ((E.rows.set E.cy _).getD E.cy emptyRow).chars.length
          rw [getD_set_self _ _ _ _ hlt]
          rw [editorUpdateRow_chars, length_delete_at _ _ (by omega)]
          omega
        · intro hfalse
          simp only [List.length_set] at hfalse
          omega
      · rw [if_neg hx]
        have hcx : E.cx = 0 := by omega
        have hy : 0 < E.cy := by
          rcases Nat.eq_zero_or_pos E.cy with h0 | hp
          · exact absurd ⟨hcx, h0⟩ hor
          · exact hp
        simp only [editorRowAppendString]
        rw [editorDelRow_inbounds _ (E.cy : Int) (by omega)
              (by show (E.cy : Int) ≤ E.numrows; omega)]
        refine ⟨?_, ?_, ?_, ?_⟩
        · show ((E.cy - 1 : Nat) : Int) ≤ E.numrows - 1
          omega
        · show E.numrows - 1 = ((listEraseIdx (E.cy : Int).toNat ((E.rows.set (E.cy - 1) _))).length : Int)
          rw [length_listEraseIdx _ _ (by simp only [List.length_set]; omega)]
          simp only [List.length_set]
          omega
        · intro _
          show (E.rows.getD (E.cy - 1) emptyRow).chars.length
              ≤ ((listEraseIdx (E.cy : Int).toNat (E.rows.set (E.cy - 1) _)).getD (E.cy - 1) emptyRow).chars.length
          have hey : (E.cy : Int).toNat = E.cy := by omega
          rw [hey, getD_listEraseIdx_lt _ _ _ _ (by omega),
              getD_set_self _ _ _ _ (by omega), editorUpdateRow_chars]
          simp
        · intro hfalse
          rw [length_listEraseIdx _ _ (by simp only [List.length_set]; omega)] at hfalse
          simp only [List.length_set] at hfalse
          omega

/-- Claim C9: every editing operation (insertChar, insertNewline, deleteChar)
and every cursor-move operation (the four editorMoveCursor directions and the
Home/End handlers) preserves the cursor invariant: the cursor's byte-column is
at most the length of the line it is on, and is 0 when the cursor's line index
equals the number of lines (together with the well-formedness facts cy ≤
numrows and numrows = number of rows that these operations maintain). -/
theorem cursor_invariant_preserved (E : EState) (op : EdOp) (h : cursorOk E) :
    cursorOk (applyEdOp E op) := by
  cases op with
  | move d => exact cursorOk_moveCursor E d h
  | home =>
    obtain ⟨h1, h2, h3, h4⟩ := h
    exact ⟨h1, h2, fun _ => Nat.zero_le _, fun _ => rfl⟩
  | endk =>
    obtain ⟨h1, h2, h3, h4⟩ := h
    simp only [applyEdOp]
    by_cases hlt : (E.cy : Int) < E.numrows
    · rw [if_pos hlt]
      refine ⟨h1, h2, fun _ => Nat.le_refl _, ?_⟩
      intro hfalse
      simp at hfalse
      exact absurd hfalse (by omega)
    · rw [if_neg hlt]
      exact ⟨h1, h2, h3, h4⟩
  | insCh c => exact cursorOk_insertChar E c h
  | insNl => exact cursorOk_insertNewline E h
  | delCh => exact cursorOk_delChar E h

/-- Witness for C9 at a concrete state and operation. -/
theorem cursor_invariant_preserved_witness :
    cursorOk dirtyState ∧ cursorOk (applyEdOp dirtyState EdOp.delCh) :=
  ⟨by decide, cursor_invariant_preserved dirtyState EdOp.delCh (by decide)⟩
